import Mathlib

/-!
Verification of the trace-reduction engine of `scripts/analyze-trace.py`:
the Speedscope profile decoder (sampled and evented encodings), the
cross-thread aggregator, the method classifier and the metrics builder.

Modelling conventions:
* Python floats (timestamps, weights, accumulated times) are modelled as
  exact rationals `ℚ`; the engine only adds, subtracts, multiplies,
  divides and compares them.
* Python `Counter`/`dict` objects are modelled as insertion-ordered
  association lists `List (Nat × α)`; `ledgerAdd` updates the first
  matching key in place and appends a fresh key at the end, exactly the
  insertion-order behaviour of a Python dict, which matters because
  `Counter.most_common` breaks ties by insertion order.
* Python strings are modelled as `String`, with the operations
  (`lower`, `split('!')`, substring containment via `in`) implemented
  over the character list `String.data` so that they can be reasoned
  about by list induction.  ASCII lowering agrees with Python `str.lower`
  on the inputs of interest.
* The Python stack `list` (`stack[-1]` is the top) is modelled with the
  head of a Lean list as the top of the stack.
* The generation timestamp (`datetime.now`) is real time and is outside
  the model; no claim mentions it.
-/

/-- Characterwise ASCII lowering, modelling Python `str.lower()`. -/
def lowerStr (s : String) : String := ⟨s.data.map Char.toLower⟩

/-- `startsWithL pat l` is true when `pat` is an initial segment of `l`. -/
def startsWithL : List Char → List Char → Bool
  | [], _ => true
  | _ :: _, [] => false
  | a :: as, b :: bs => a = b && startsWithL as bs

/-- `containsSub pat l` is true when `pat` occurs contiguously in `l`;
this models Python `pat in s` for strings. -/
def containsSub (pat : List Char) : List Char → Bool
  | [] => startsWithL pat []
  | c :: cs => startsWithL pat (c :: cs) || containsSub pat cs

/-- Python `pat in s` (substring containment). -/
def strContains (s pat : String) : Bool := containsSub pat.data s.data

/-- Python `s.split(c)` for a single-character separator: splits into the
(nonempty) list of chunks between occurrences of `c`. -/
def splitChar (c : Char) : List Char → List (List Char)
  | [] => [[]]
  | x :: xs =>
      if x = c then [] :: splitChar c xs
      else
        match splitChar c xs with
        | [] => [[x]]
        | p :: ps => (x :: p) :: ps

/-- `ledgerAdd l k v` models `counter[k] += v` on a Python `Counter`
represented as an insertion-ordered association list: the first entry
with key `k` is updated in place, and a missing key is appended at the
end (Python dicts preserve insertion order). -/
def ledgerAdd {α : Type} [Add α] : List (Nat × α) → Nat → α → List (Nat × α)
  | [], k, v => [(k, v)]
  | (k', v') :: rest, k, v =>
      if k' = k then (k', v' + v) :: rest
      else (k', v') :: ledgerAdd rest k v

/-- `ledgerGet l k` models `counter[k]` on a Python `Counter`: the stored
value, or `0` when the key is absent. -/
def ledgerGet {α : Type} [Zero α] : List (Nat × α) → Nat → α
  | [], _ => 0
  | (k', v') :: rest, k => if k' = k then v' else ledgerGet rest k

/-- A per-frame time ledger: frame index to accumulated rational time. -/
abbrev Ledger := List (Nat × ℚ)

/-- A per-frame occurrence-count ledger. -/
abbrev CountLedger := List (Nat × Nat)

/-- The fixed noise patterns of `categorize_method`
(`analyze-trace.py` lines 65–71). -/
def noise_patterns : List String :=
  ["threads", "non-activities", "process64", "unmanaged_code_time",
   "threading.portablethreadpool", "threading.lowlevellifosemaphore",
   "threading.semaphoreslim", "threading.monitor.wait",
   "threading.manualreseteventslim", "threading.thread.sleep",
   "waithandle", "taskawaiter"]

/-- `categorize_method` (`analyze-trace.py` lines 54–81): lower-case the
name; any noise pattern occurring as a substring gives `"noise"`;
otherwise a `"probotsharp"` substring gives `"app"`; otherwise
`"framework"`. -/
def categorize_method (method_name : String) : String :=
  let method_lower := lowerStr method_name
  if noise_patterns.any (fun p => strContains method_lower p) then "noise"
  else if strContains method_lower "probotsharp" then "app"
  else "framework"

/-- The frame-name cleanup of the hotspot loop (`analyze-trace.py` lines
209–218): when the raw name contains `'!'`, split on `'!'` and take
`parts[1]` (the chunk between the first and the second `'!'`); otherwise
keep the raw name.  The `parts[1]` access is guarded by
`len(parts) > 1` in the source, with the raw name as fallback. -/
def cleanFrameName (frame_name : String) : String :=
  if frame_name.data.contains '!' then
    match splitChar '!' frame_name.data with
    | _ :: p1 :: _ => ⟨p1⟩
    | _ => frame_name
  else frame_name

/-- One Speedscope event record `{type, frame, at}`; `ts` models the
`at` timestamp field.  Types other than `"O"` and `"C"` are ignored by
the decoder, as in the source's `if/elif` chain. -/
structure SEvent where
  type : String
  frame : Nat
  ts : ℚ
deriving DecidableEq, Repr

/-- One entry of the evented decoder's explicit stack: the Python tuple
`(frame_idx, open_time, children_time)`. -/
structure StackEntry where
  frame : Nat
  openTime : ℚ
  children : ℚ
deriving DecidableEq, Repr

/-- The evented decoder's running state: the stack (list head = Python
`stack[-1]`) and the three per-frame ledgers. -/
structure EventedState where
  stack : List StackEntry
  inclusiveL : Ledger
  exclusiveL : Ledger
  countL : CountLedger
deriving DecidableEq, Repr

/-- Processing of one event (`analyze-trace.py` lines 134–158).
`"O"` pushes `(frame, at, 0.0)`.  `"C"` with a matching top pops it,
records `inclusive = at − open_time` and
`exclusive = inclusive − children_time` (no clamping), increments the
count, and adds `inclusive` to the new top's children time; a `"C"` with
an empty stack or a non-matching top leaves the state unchanged. -/
def eventedStep (s : EventedState) (e : SEvent) : EventedState :=
  if e.type = "O" then
    { s with stack := ⟨e.frame, e.ts, 0⟩ :: s.stack }
  else if e.type = "C" then
    match s.stack with
    | [] => s
    | top :: rest =>
        if top.frame = e.frame then
          let inclusive := e.ts - top.openTime
          let exclusive := inclusive - top.children
          let newStack :=
            match rest with
            | [] => ([] : List StackEntry)
            | parent :: rest2 =>
                ⟨parent.frame, parent.openTime, parent.children + inclusive⟩ :: rest2
          { stack := newStack,
            inclusiveL := ledgerAdd s.inclusiveL e.frame inclusive,
            exclusiveL := ledgerAdd s.exclusiveL e.frame exclusive,
            countL := ledgerAdd s.countL e.frame 1 }
        else s
  else s

/-- The empty decoder state. -/
def initEvented : EventedState := ⟨[], [], [], []⟩

/-- Decoding of one evented recording's event list: a left fold of
`eventedStep` from the empty state. -/
def decodeEvented (events : List SEvent) : EventedState :=
  events.foldl eventedStep initEvented

/-- One per-thread recording (`profiles[i]`), tagged by its declared
`type` field: `sampled` carries parallel `samples`/`weights` arrays,
`evented` carries `startValue`, `endValue` and its event list, and
`otherType` stands for any unrecognised `type` string, which the
processing loop skips entirely. -/
inductive Profile where
  | sampled (samples : List Nat) (weights : List ℚ)
  | evented (startValue endValue : ℚ) (events : List SEvent)
  | otherType
deriving DecidableEq, Repr

/-- The per-profile record appended to `profile_results`
(`analyze-trace.py` lines 164–169). -/
structure ProfileResult where
  duration_ms : ℚ
  frame_inclusive : Ledger
  frame_exclusive : Ledger
  frame_count : CountLedger
deriving DecidableEq, Repr

/-- The running state of the profile loop (`analyze-trace.py` lines
103–105): `total_samples` and `frame_samples` are shared across all
sampled profiles, `profile_results` collects evented results in order. -/
structure ParseState where
  total_samples : ℚ
  frame_samples : Ledger
  profile_results : List ProfileResult
deriving DecidableEq, Repr

/-- The inner loop of the sampled branch (`analyze-trace.py` lines
116–119): for each sample position `i`, the weight is `weights[i]` when
`i < len(weights)` and `1` otherwise; it is added to the running total
and to the frame's entry. -/
def sampledLoop (weights : List ℚ) : Nat → ℚ × Ledger → List Nat → ℚ × Ledger
  | _, acc, [] => acc
  | i, (ts, fs), frame_idx :: rest =>
      let weight := if i < weights.length then weights.getD i 1 else 1
      sampledLoop weights (i + 1) (ts + weight, ledgerAdd fs frame_idx weight) rest

/-- Processing of one profile in the main loop
(`analyze-trace.py` lines 107–169). -/
def processProfile (st : ParseState) (p : Profile) : ParseState :=
  match p with
  | .sampled samples weights =>
      let acc := sampledLoop weights 0 (st.total_samples, st.frame_samples) samples
      { st with total_samples := acc.1, frame_samples := acc.2 }
  | .evented startValue endValue events =>
      let fin := decodeEvented events
      { st with
          profile_results := st.profile_results ++
            [⟨endValue - startValue, fin.inclusiveL, fin.exclusiveL, fin.countL⟩] }
  | .otherType => st

/-- The whole profile loop, starting from the empty state. -/
def processProfiles (profiles : List Profile) : ParseState :=
  profiles.foldl processProfile ⟨0, [], []⟩

/-- `sumLedgers acc ls` models the nested aggregation loops
(`analyze-trace.py` lines 182–188): each ledger's items are folded into
the accumulator in order with `ledgerAdd`. -/
def sumLedgers {α : Type} [Add α] (acc : List (Nat × α)) (ls : List (List (Nat × α))) :
    List (Nat × α) :=
  ls.foldl (fun a l => l.foldl (fun a' kv => ledgerAdd a' kv.1 kv.2) a) acc

/-- `sum(counter.values())` (`analyze-trace.py` line 191). -/
def sumVals (l : Ledger) : ℚ := l.foldl (fun a kv => a + kv.2) 0

/-- The aggregated whole-trace totals produced by lines 171–198 of
`analyze-trace.py` (the `if profile_results: ... else: ...` block). -/
structure Totals where
  wall_clock_ms : ℚ
  total_cpu_time_ms : ℚ
  total_inclusive : Ledger
  total_exclusive : Ledger
  total_count : CountLedger
deriving DecidableEq, Repr

/-- Aggregation across profiles (`analyze-trace.py` lines 171–198).
With at least one evented result: wall clock is the maximum duration
(Python `max` over a nonempty sequence), the three ledgers are
element-wise sums, and CPU time is the sum of all exclusive values.
Otherwise (sampled or empty): wall clock and CPU time are
`total_samples * 1.0`, both aggregate time ledgers are `frame_samples`,
and the count ledger is a fresh empty `Counter()`. -/
def aggregate (st : ParseState) : Totals :=
  match st.profile_results with
  | [] =>
      ⟨st.total_samples * 1, st.total_samples * 1, st.frame_samples, st.frame_samples, []⟩
  | r :: rs =>
      let wall_clock_ms := (rs.map (fun p => p.duration_ms)).foldl max r.duration_ms
      let total_inclusive := sumLedgers [] ((r :: rs).map (fun p => p.frame_inclusive))
      let total_exclusive := sumLedgers [] ((r :: rs).map (fun p => p.frame_exclusive))
      let total_count := sumLedgers [] ((r :: rs).map (fun p => p.frame_count))
      ⟨wall_clock_ms, sumVals total_exclusive, total_inclusive, total_exclusive, total_count⟩

/-- Stable descending insertion by ledger value: `x` is placed before
the first element whose value is `≤ x`'s, so among equal values earlier
elements stay first. -/
def insertByVal (x : Nat × ℚ) : List (Nat × ℚ) → List (Nat × ℚ)
  | [] => [x]
  | y :: ys => if y.2 ≤ x.2 then x :: y :: ys else y :: insertByVal x ys

/-- Stable sort of a ledger by value, descending. -/
def sortByValDesc : List (Nat × ℚ) → List (Nat × ℚ)
  | [] => []
  | x :: xs => insertByVal x (sortByValDesc xs)

/-- `Counter.most_common(n)`: the `n` largest entries by value, with
ties in insertion order (CPython's `heapq.nlargest` is stable, i.e.
equivalent to a stable descending sort followed by `take n`). -/
def mostCommon (n : Nat) (l : List (Nat × ℚ)) : List (Nat × ℚ) :=
  (sortByValDesc l).take n

/-- Python `round(x, 2)`, modelled as exact half-even rounding to two
decimal places on rationals (the source applies it to floats; the
binary-float representation error is outside the model). -/
def round2 (x : ℚ) : ℚ :=
  let y := x * 100
  let n := ⌊y⌋
  let r := y - (n : ℚ)
  let m : ℤ :=
    if r < 1 / 2 then n
    else if 1 / 2 < r then n + 1
    else if n % 2 = 0 then n else n + 1
  (m : ℚ) / 100

/-- A frame record of the shared frame table; only the `name` field is
read by the engine. -/
structure Frame where
  name : String
deriving DecidableEq, Repr

/-- One entry of the `top_methods` list
(`analyze-trace.py` lines 227–235). -/
structure HotspotEntry where
  method : String
  inclusive_ms : ℚ
  exclusive_ms : ℚ
  inclusive_pct : ℚ
  exclusive_pct : ℚ
  samples : Nat
  category : String
deriving DecidableEq, Repr

/-- The hotspot loop (`analyze-trace.py` lines 200–235): take
`most_common(10)` of the aggregate exclusive ledger and, for each entry
whose frame index is in range of the frame table, build a hotspot entry
from the cleaned name; out-of-range indices are skipped. -/
def buildTopMethods (frames : List Frame) (t : Totals) : List HotspotEntry :=
  (mostCommon 10 t.total_exclusive).filterMap fun kv =>
    if kv.1 < frames.length then
      let frame_name := (frames.getD kv.1 ⟨"Unknown"⟩).name
      let method_path := cleanFrameName frame_name
      let inclusive_time := ledgerGet t.total_inclusive kv.1
      let inclusive_pct :=
        if 0 < t.wall_clock_ms then inclusive_time / t.wall_clock_ms * 100 else 0
      let exclusive_pct :=
        if 0 < t.wall_clock_ms then kv.2 / t.wall_clock_ms * 100 else 0
      some ⟨method_path, round2 inclusive_time, round2 kv.2,
            round2 inclusive_pct, round2 exclusive_pct,
            ledgerGet t.total_count kv.1, categorize_method method_path⟩
    else none

/-- The GC/allocation scan (`analyze-trace.py` lines 240–250): fold over
the aggregate exclusive ledger; for each in-range frame index, lower the
RAW frame name (`frames[frame_idx].get('name', '').lower()`, not the
cleaned display name) and add the exclusive time to the GC sum when it
contains `"gc"` or `"garbage"`, and to the allocation sum when it
contains `"alloc"`; out-of-range indices contribute nothing. -/
def gcStep (frames : List Frame) (acc : ℚ × ℚ) (kv : Nat × ℚ) : ℚ × ℚ :=
  if kv.1 < frames.length then
    let frame_name := lowerStr (frames.getD kv.1 ⟨""⟩).name
    let gc := if strContains frame_name "gc" || strContains frame_name "garbage"
              then acc.1 + kv.2 else acc.1
    let al := if strContains frame_name "alloc" then acc.2 + kv.2 else acc.2
    (gc, al)
  else acc

def gcAlloc (frames : List Frame) (l : Ledger) : ℚ × ℚ :=
  l.foldl (gcStep frames) (0, 0)

/-- The metrics record returned by `parse_speedscope`; `error` is `some`
of the error message exactly when the Python dict carries an `'error'`
key, in which case the numeric fields the dict omits are zero here. -/
structure Metrics where
  error : Option String
  wall_clock_ms : ℚ
  total_cpu_time_ms : ℚ
  top_methods : List HotspotEntry
  thread_count : Nat
  gc_samples : ℚ
  gc_percentage : ℚ
  alloc_samples : ℚ
  alloc_percentage : ℚ
deriving DecidableEq, Repr

/-- `parse_speedscope` (`analyze-trace.py` lines 84–265) after JSON
decoding: `frames` is `data['shared']['frames']` and `profiles` is
`data['profiles']`.  An empty frame table or an empty profile list
short-circuits to the error record of lines 92–99; otherwise the profile
loop, the aggregation, the hotspot loop and the GC/allocation scan run
as modelled above, and percentages guard division by a non-positive
wall clock to `0`. -/
def parse_speedscope (frames : List Frame) (profiles : List Profile) : Metrics :=
  if frames.isEmpty || profiles.isEmpty then
    { error := some "Empty trace file - no frames or profiles found",
      wall_clock_ms := 0, total_cpu_time_ms := 0, top_methods := [],
      thread_count := 0, gc_samples := 0, gc_percentage := 0,
      alloc_samples := 0, alloc_percentage := 0 }
  else
    let st := processProfiles profiles
    let t := aggregate st
    let top_methods := buildTopMethods frames t
    let ga := gcAlloc frames t.total_exclusive
    let gc_percentage := if 0 < t.wall_clock_ms then ga.1 / t.wall_clock_ms * 100 else 0
    let alloc_percentage := if 0 < t.wall_clock_ms then ga.2 / t.wall_clock_ms * 100 else 0
    { error := none,
      wall_clock_ms := round2 t.wall_clock_ms,
      total_cpu_time_ms := round2 t.total_cpu_time_ms,
      top_methods := top_methods,
      thread_count := profiles.length,
      gc_samples := ga.1,
      gc_percentage := round2 gc_percentage,
      alloc_samples := ga.2,
      alloc_percentage := round2 alloc_percentage }

/-! ### Unfolding lemmas for the evented decoder step -/

/-- An `"O"` event pushes `(frame, at, 0)` onto the stack. -/
theorem eventedStep_O (s : EventedState) (f : Nat) (t : ℚ) :
    eventedStep s ⟨"O", f, t⟩ = { s with stack := ⟨f, t, 0⟩ :: s.stack } := rfl

/-- A `"C"` event on an empty stack is a no-op. -/
theorem eventedStep_C_nil (il el : Ledger) (cl : CountLedger) (f : Nat) (t : ℚ) :
    eventedStep ⟨[], il, el, cl⟩ ⟨"C", f, t⟩ = ⟨[], il, el, cl⟩ := rfl

/-- A `"C"` event on a nonempty stack: pop and record when the top frame
matches, otherwise a no-op. -/
theorem eventedStep_C_cons (top : StackEntry) (rest : List StackEntry)
    (il el : Ledger) (cl : CountLedger) (f : Nat) (t : ℚ) :
    eventedStep ⟨top :: rest, il, el, cl⟩ ⟨"C", f, t⟩ =
      if top.frame = f then
        ⟨(match rest with
           | [] => ([] : List StackEntry)
           | parent :: rest2 =>
               ⟨parent.frame, parent.openTime, parent.children + (t - top.openTime)⟩ :: rest2),
         ledgerAdd il f (t - top.openTime),
         ledgerAdd el f (t - top.openTime - top.children),
         ledgerAdd cl f 1⟩
      else ⟨top :: rest, il, el, cl⟩ := rfl

/-! ### Ledger lemmas -/

/-- Effect of a `Counter` update on a later lookup. -/
theorem ledgerGet_ledgerAdd {α : Type} [AddCommMonoid α]
    (l : List (Nat × α)) (k : Nat) (v : α) (k' : Nat) :
    ledgerGet (ledgerAdd l k v) k' = ledgerGet l k' + (if k = k' then v else 0) := by
  induction l with
  | nil =>
      by_cases h : k = k' <;> simp [ledgerAdd, ledgerGet, h]
  | cons hd tl ih =>
      obtain ⟨k0, v0⟩ := hd
      by_cases h0 : k0 = k
      · subst h0
        by_cases h1 : k0 = k' <;> simp [ledgerAdd, ledgerGet, h1, add_comm]
      · by_cases h1 : k0 = k'
        · subst h1
          have : ¬ k = k0 := fun h => h0 h.symm
          simp [ledgerAdd, ledgerGet, h0, this]
        · simp [ledgerAdd, ledgerGet, h0, h1, ih]

/-! ### Stack invariant for the evented decoder (monotone timestamps) -/

/-- `stackInv T stk`: every entry's accumulated children time is
nonnegative and fits inside the time elapsed since the entry was
opened; `T` bounds the top entry from above (all timestamps processed
so far are `≤ T`), and each deeper entry is bounded by the entry above
it. -/
def stackInv : ℚ → List StackEntry → Prop
  | _, [] => True
  | T, entry :: rest =>
      0 ≤ entry.children ∧ entry.openTime + entry.children ≤ T ∧
        stackInv entry.openTime rest

/-- `stackInv` is monotone in the time bound. -/
theorem stackInv_mono {T T' : ℚ} {stk : List StackEntry}
    (h : stackInv T stk) (hle : T ≤ T') : stackInv T' stk := by
  cases stk with
  | nil => trivial
  | cons entry rest => exact ⟨h.1, le_trans h.2.1 hle, h.2.2⟩

/-- `ledgersOK s`: in every ledger slot, `0 ≤ exclusive ≤ inclusive`. -/
def ledgersOK (s : EventedState) : Prop :=
  ∀ f : Nat, 0 ≤ ledgerGet s.exclusiveL f ∧
    ledgerGet s.exclusiveL f ≤ ledgerGet s.inclusiveL f

/-- `tsLB T events = true` when the event timestamps are nondecreasing
and bounded below by `T`. -/
def tsLB (T : ℚ) : List SEvent → Bool
  | [] => true
  | e :: es => decide (T ≤ e.ts) && tsLB e.ts es

/-- `tsSorted events = true` when the event timestamps are
nondecreasing along the list. -/
def tsSorted : List SEvent → Bool
  | [] => true
  | e :: es => tsLB e.ts es

/-- The timestamp of the last event, with default `T` for an empty
list. -/
def lastTs (T : ℚ) : List SEvent → ℚ
  | [] => T
  | e :: es => lastTs e.ts es

/-- The timestamp of the first event, with default `0`. -/
def firstTs : List SEvent → ℚ
  | [] => 0
  | e :: _ => e.ts

/-- A sorted event list is bounded below by its first timestamp. -/
theorem tsLB_of_tsSorted {events : List SEvent} (h : tsSorted events = true) :
    tsLB (firstTs events) events = true := by
  cases events with
  | nil => rfl
  | cons e es =>
      simp only [tsLB, firstTs, Bool.and_eq_true, decide_eq_true_eq]
      exact ⟨le_refl _, h⟩

/-- Splitting a timestamp lower bound across an append. -/
theorem tsLB_append {l1 l2 : List SEvent} {T : ℚ} (h : tsLB T (l1 ++ l2) = true) :
    tsLB T l1 = true ∧ tsLB (lastTs T l1) l2 = true := by
  induction l1 generalizing T with
  | nil => exact ⟨rfl, h⟩
  | cons e es ih =>
      simp only [List.cons_append, tsLB, Bool.and_eq_true] at h
      obtain ⟨h1, h2⟩ := h
      obtain ⟨h3, h4⟩ := ih h2
      exact ⟨by simp [tsLB, h1, h3], h4⟩

/-- Preservation of the stack and ledger invariants by one decoder step,
assuming the event's timestamp is at least the current bound. -/
theorem eventedStep_inv {T : ℚ} {s : EventedState} {e : SEvent}
    (hT : T ≤ e.ts) (hs : stackInv T s.stack) (hl : ledgersOK s) :
    stackInv e.ts (eventedStep s e).stack ∧ ledgersOK (eventedStep s e) := by
  obtain ⟨stk, il, el, cl⟩ := s
  by_cases hO : e.type = "O"
  · have he : e = ⟨"O", e.frame, e.ts⟩ := by
      obtain ⟨ty, f, t⟩ := e; simp_all
    rw [he, eventedStep_O]
    refine ⟨⟨le_refl 0, by simp, stackInv_mono hs hT⟩, hl⟩
  · by_cases hC : e.type = "C"
    · have he : e = ⟨"C", e.frame, e.ts⟩ := by
        obtain ⟨ty, f, t⟩ := e; simp_all
      cases stk with
      | nil =>
          rw [he, eventedStep_C_nil]
          exact ⟨trivial, hl⟩
      | cons top rest =>
          rw [he, eventedStep_C_cons]
          by_cases hm : top.frame = e.frame
        
          · rw [if_pos hm]
            obtain ⟨hch, hfit, hrest⟩ := hs
            have hincl0 : (0:ℚ) ≤ e.ts - top.openTime := by
              have : top.openTime ≤ T := le_trans (by linarith) hfit
              linarith
            have hexcl0 : (0:ℚ) ≤ e.ts - top.openTime - top.children := by
              have : top.openTime + top.children ≤ e.ts := le_trans hfit hT
              linarith
            have hexcl_le : e.ts - top.openTime - top.children ≤ e.ts - top.openTime := by
              linarith
            constructor
            · cases rest with
              | nil => trivial
              | cons parent rest2 =>
                  obtain ⟨hch2, hfit2, hrest2⟩ := hrest
                  refine ⟨?_, ?_, hrest2⟩
                  · show (0:ℚ) ≤ parent.children + (e.ts - top.openTime)
                    linarith
                  · show parent.openTime + (parent.children + (e.ts - top.openTime)) ≤ e.ts
                    linarith
            · intro f
              simp only [ledgerGet_ledgerAdd]
              obtain ⟨h1, h2⟩ := hl f
              by_cases hf : e.frame = f
              · simp only [if_pos hf]
                constructor
                · exact add_nonneg h1 hexcl0
                · exact add_le_add h2 (by linarith)
              · simp only [if_neg hf, add_zero]
                exact ⟨h1, h2⟩
          · rw [if_neg hm]
            exact ⟨stackInv_mono hs hT, hl⟩
    · have hstep : eventedStep ⟨stk, il, el, cl⟩ e = ⟨stk, il, el, cl⟩ := by
        rw [eventedStep]
        simp [hO, hC]
      rw [hstep]
      exact ⟨stackInv_mono hs hT, hl⟩

/-- The invariants hold after folding any bounded, sorted event list
from a state satisfying them. -/
theorem eventedRun_inv : ∀ (events : List SEvent) (T : ℚ) (s : EventedState),
    tsLB T events = true → stackInv T s.stack → ledgersOK s →
    stackInv (lastTs T events) (events.foldl eventedStep s).stack ∧
      ledgersOK (events.foldl eventedStep s) := by
  intro events
  induction events with
  | nil => intro T s _ hs hl; exact ⟨hs, hl⟩
  | cons e es ih =>
      intro T s hts hs hl
      simp only [tsLB, Bool.and_eq_true, decide_eq_true_eq] at hts
      obtain ⟨hTe, hes⟩ := hts
      have hstep := eventedStep_inv hTe hs hl
      simpa only [List.foldl_cons, lastTs] using
        ih e.ts (eventedStep s e) hes hstep.1 hstep.2

/-- The initial decoder state satisfies the ledger invariant. -/
theorem ledgersOK_init : ledgersOK initEvented := by
  intro f
  simp [initEvented, ledgerGet]

/-! ### C1: bounds on recorded exclusive time -/

/-- C1, counterexample: the decoder does NOT clamp exclusive time to
zero.  On the corrupt event sequence `O(0)@0, O(1)@0, C(1)@10, C(0)@5`
(the child's interval `10` exceeds the parent's interval `5`), the
parent frame `0` gets exclusive time `5 − 10 = −5` recorded in the
ledger: a negative value, contradicting the claim that exclusive time
is clamped to zero and always satisfies `0 ≤ exclusive`. -/
theorem c1_no_clamp_counterexample :
    ledgerGet (decodeEvented
      [⟨"O", 0, 0⟩, ⟨"O", 1, 0⟩, ⟨"C", 1, 10⟩, ⟨"C", 0, 5⟩]).exclusiveL 0 = -5 ∧
    (-5 : ℚ) < 0 := by
  constructor
  · norm_num [decodeEvented, eventedStep, initEvented, ledgerAdd, ledgerGet]
  · norm_num

/-- C1 (amended): for every evented recording whose event timestamps
are nondecreasing, every ledger slot satisfies
`0 ≤ exclusive ≤ inclusive`, and every completed Open/Close pair (a
`"C"` event matching the top of the reconstruction stack) records an
exclusive time `at − open_time − children_time` with
`0 ≤ exclusive ≤ inclusive`.  No clamping is performed by the code: on
corrupt input with decreasing timestamps, where accumulated children
time exceeds the parent's interval, a negative exclusive value is
recorded as-is (see the counterexample). -/
theorem c1_exclusive_bounds_of_sorted (events : List SEvent)
    (hsorted : tsSorted events = true) :
    (∀ f : Nat, 0 ≤ ledgerGet (decodeEvented events).exclusiveL f ∧
       ledgerGet (decodeEvented events).exclusiveL f ≤
         ledgerGet (decodeEvented events).inclusiveL f) ∧
    (∀ (n : Nat) (e : SEvent) (top : StackEntry) (rest : List StackEntry),
       events.get? n = some e → e.type = "C" →
       (decodeEvented (events.take n)).stack = top :: rest →
       top.frame = e.frame →
       0 ≤ e.ts - top.openTime - top.children ∧
         e.ts - top.openTime - top.children ≤ e.ts - top.openTime) := by
  have hLB : tsLB (firstTs events) events = true := tsLB_of_tsSorted hsorted
  have hinit : stackInv (firstTs events) initEvented.stack := by
    simp [initEvented, stackInv]
  constructor
  · exact (eventedRun_inv events (firstTs events) initEvented hLB hinit ledgersOK_init).2
  · intro n e top rest hget htype hstack hframe
    have hsplit : events.take n ++ events.drop n = events := List.take_append_drop n events
    have hLB' : tsLB (firstTs events) (events.take n ++ events.drop n) = true := by
      rw [hsplit]; exact hLB
    obtain ⟨hLBtake, hLBdrop⟩ := tsLB_append hLB'
    have hdropget : (events.drop n).get? 0 = some e := by
      rw [List.get?_drop]; simpa using hget
    obtain ⟨hinvstack, -⟩ :=
      eventedRun_inv (events.take n) (firstTs events) initEvented hLBtake hinit ledgersOK_init
    rw [show (events.take n).foldl eventedStep initEvented = decodeEvented (events.take n)
          from rfl, hstack] at hinvstack
    obtain ⟨hch, hfit, -⟩ := hinvstack
    have hts : lastTs (firstTs events) (events.take n) ≤ e.ts := by
      cases hd : events.drop n with
      | nil => rw [hd] at hdropget; simp [List.get?] at hdropget
      | cons e' es' =>
          rw [hd] at hdropget hLBdrop
          simp [List.get?] at hdropget
          simp only [tsLB, Bool.and_eq_true, decide_eq_true_eq] at hLBdrop
          rw [← hdropget]
          exact hLBdrop.1
    constructor
    · linarith
    · linarith

/-- C1 witness: the amended theorem applied to the concrete sorted
recording `O(0)@0, C(0)@5`, at ledger slot `0` and at the closing event
(position 1). -/
theorem c1_exclusive_bounds_witness :
    (0 ≤ ledgerGet (decodeEvented [⟨"O", 0, 0⟩, ⟨"C", 0, 5⟩]).exclusiveL 0 ∧
      ledgerGet (decodeEvented [⟨"O", 0, 0⟩, ⟨"C", 0, 5⟩]).exclusiveL 0 ≤
        ledgerGet (decodeEvented [⟨"O", 0, 0⟩, ⟨"C", 0, 5⟩]).inclusiveL 0) ∧
    (0 ≤ (5 : ℚ) - 0 - 0 ∧ (5 : ℚ) - 0 - 0 ≤ (5 : ℚ) - 0) := by
  have h := c1_exclusive_bounds_of_sorted [⟨"O", 0, 0⟩, ⟨"C", 0, 5⟩] (by decide)
  refine ⟨h.1 0, ?_⟩
  exact h.2 1 ⟨"C", 0, 5⟩ ⟨0, 0, 0⟩ [] (by decide) rfl (by decide) rfl

/-! ### C7: tolerance of malformed event sequences -/

/-- A step on an event that is not a `"C"` leaves all three ledgers
unchanged (an `"O"` only pushes onto the stack). -/
theorem eventedStep_ledgers_of_not_close (s : EventedState) (e : SEvent)
    (h : e.type ≠ "C") :
    (eventedStep s e).inclusiveL = s.inclusiveL ∧
      (eventedStep s e).exclusiveL = s.exclusiveL ∧
      (eventedStep s e).countL = s.countL := by
  rw [eventedStep]
  by_cases hO : e.type = "O" <;> simp [hO, h]

/-- Folding a list with no `"C"` events leaves all ledgers unchanged. -/
theorem foldl_ledgers_of_no_close :
    ∀ (events : List SEvent) (s : EventedState), (∀ e ∈ events, e.type ≠ "C") →
      (events.foldl eventedStep s).inclusiveL = s.inclusiveL ∧
        (events.foldl eventedStep s).exclusiveL = s.exclusiveL ∧
        (events.foldl eventedStep s).countL = s.countL := by
  intro events
  induction events with
  | nil => intro s _; exact ⟨rfl, rfl, rfl⟩
  | cons e es ih =>
      intro s h
      have h1 := eventedStep_ledgers_of_not_close s e (h e (List.mem_cons_self e es))
      have h2 := ih (eventedStep s e) (fun e' he' => h e' (List.mem_cons_of_mem e he'))
      exact ⟨h2.1.trans h1.1, h2.2.1.trans h1.2.1, h2.2.2.trans h1.2.2⟩

/-- C7: (i) a `"C"` event whose frame does not match the top of the
stack — including a `"C"` on an empty stack, where the mismatch
hypothesis is vacuous — leaves the decoder state entirely unchanged
(nothing popped, nothing recorded, and, the model being a total
function, nothing raised); (ii) a recording consisting only of
non-`"C"` events (in particular dangling `"O"` events that are never
closed) contributes no time to any ledger. -/
theorem c7_mismatched_close_dropped :
    (∀ (s : EventedState) (e : SEvent), e.type = "C" →
       (∀ top rest, s.stack = top :: rest → top.frame ≠ e.frame) →
       eventedStep s e = s) ∧
    (∀ events : List SEvent, (∀ e ∈ events, e.type ≠ "C") →
       (decodeEvented events).inclusiveL = [] ∧
         (decodeEvented events).exclusiveL = [] ∧
         (decodeEvented events).countL = []) := by
  constructor
  · intro s e htype hmismatch
    obtain ⟨stk, il, el, cl⟩ := s
    have he : e = ⟨"C", e.frame, e.ts⟩ := by
      obtain ⟨ty, f, t⟩ := e; simp_all
    cases stk with
    | nil => rw [he, eventedStep_C_nil]
    | cons top rest =>
        rw [he, eventedStep_C_cons, if_neg]
        exact hmismatch top rest rfl
  · intro events h
    have := foldl_ledgers_of_no_close events initEvented h
    simpa [decodeEvented, initEvented] using this

/-- C7 witness: a mismatched close (`C` of frame `1` while frame `0` is
on top) at timestamp `5` is a no-op, and a recording of one dangling
open leaves every ledger empty. -/
theorem c7_mismatched_close_dropped_witness :
    eventedStep ⟨[⟨0, 0, 0⟩], [], [], []⟩ ⟨"C", 1, 5⟩ = ⟨[⟨0, 0, 0⟩], [], [], []⟩ ∧
      (decodeEvented [⟨"O", 0, 0⟩]).inclusiveL = [] := by
  constructor
  · exact c7_mismatched_close_dropped.1 ⟨[⟨0, 0, 0⟩], [], [], []⟩ ⟨"C", 1, 5⟩ rfl
      (by intro top rest h
          injection h with h1 _
          subst h1
          decide)
  · exact (c7_mismatched_close_dropped.2 [⟨"O", 0, 0⟩] (by decide)).1

/-! ### C8: empty trace short-circuit -/

/-- C8: with an empty frame table or an empty profile list,
`parse_speedscope` returns the explicit error-marked record whose
wall-clock duration, total CPU time and thread count are zero and whose
hotspot list is empty; being a total function, it raises nothing. -/
theorem c8_empty_trace_short_circuit (frames : List Frame) (profiles : List Profile)
    (h : frames = [] ∨ profiles = []) :
    (parse_speedscope frames profiles).error =
        some "Empty trace file - no frames or profiles found" ∧
      (parse_speedscope frames profiles).wall_clock_ms = 0 ∧
      (parse_speedscope frames profiles).total_cpu_time_ms = 0 ∧
      (parse_speedscope frames profiles).thread_count = 0 ∧
      (parse_speedscope frames profiles).top_methods = [] := by
  have hb : (frames.isEmpty || profiles.isEmpty) = true := by
    rcases h with h | h <;> subst h <;> simp [List.isEmpty]
  rw [parse_speedscope, if_pos hb]
  exact ⟨rfl, rfl, rfl, rfl, rfl⟩

/-- C8 witness: the spec's round-trip example, the empty trace document
with `frames = []` and `profiles = []`. -/
theorem c8_empty_trace_short_circuit_witness :
    (parse_speedscope [] []).error =
        some "Empty trace file - no frames or profiles found" ∧
      (parse_speedscope [] []).wall_clock_ms = 0 ∧
      (parse_speedscope [] []).total_cpu_time_ms = 0 ∧
      (parse_speedscope [] []).thread_count = 0 ∧
      (parse_speedscope [] []).top_methods = [] :=
  c8_empty_trace_short_circuit [] [] (Or.inl rfl)

/-! ### C9: the method classifier -/

/-- C9: `categorize_method` is a pure function of the display name; a
name matching any noise pattern (case-insensitively) is `"noise"` even
when it also contains `"probotsharp"`; otherwise a name containing
`"probotsharp"` (case-insensitively) is `"app"`; all remaining names
are `"framework"`.  The spec's three examples evaluate accordingly, and
a name containing both the product marker and a noise pattern is
`"noise"`. -/
theorem c9_classifier :
    (∀ name : String,
       noise_patterns.any (fun p => strContains (lowerStr name) p) = true →
       categorize_method name = "noise") ∧
    (∀ name : String,
       noise_patterns.any (fun p => strContains (lowerStr name) p) = false →
       strContains (lowerStr name) "probotsharp" = true →
       categorize_method name = "app") ∧
    (∀ name : String,
       noise_patterns.any (fun p => strContains (lowerStr name) p) = false →
       strContains (lowerStr name) "probotsharp" = false →
       categorize_method name = "framework") ∧
    categorize_method "MyApp.ProbotSharp.Handlers.Foo" = "app" ∧
    categorize_method "System.Threading.Monitor.Wait" = "noise" ∧
    categorize_method "System.Collections.Generic.List.Add" = "framework" ∧
    categorize_method "MyApp.ProbotSharp.Handlers.Foo.Wait.WaitHandle" = "noise" := by
  refine ⟨?_, ?_, ?_, by decide, by decide, by decide, by decide⟩
  · intro name h; simp [categorize_method, h]
  · intro name h1 h2; simp [categorize_method, h1, h2]
  · intro name h1 h2; simp [categorize_method, h1, h2]

/-- C9 witness: the three classifier clauses applied to the spec's
example names. -/
theorem c9_classifier_witness :
    categorize_method "System.Threading.Monitor.Wait" = "noise" ∧
      categorize_method "MyApp.ProbotSharp.Handlers.Foo" = "app" ∧
      categorize_method "System.Collections.Generic.List.Add" = "framework" :=
  ⟨c9_classifier.1 "System.Threading.Monitor.Wait" (by decide),
   c9_classifier.2.1 "MyApp.ProbotSharp.Handlers.Foo" (by decide) (by decide),
   c9_classifier.2.2.1 "System.Collections.Generic.List.Add" (by decide) (by decide)⟩

/-! ### C10: out-of-range frame indices -/

/-- The hotspot list never exceeds ten entries: it filters
`most_common(10)`. -/
theorem buildTopMethods_length_le (frames : List Frame) (t : Totals) :
    (buildTopMethods frames t).length ≤ 10 :=
  le_trans (List.length_filterMap_le _ _)
    (le_trans (List.length_take_le 10 _) (le_refl 10))

/-- A ledger entry whose frame index is out of range of the frame table
contributes nothing to the GC/allocation sums. -/
theorem gcAlloc_out_of_range (frames : List Frame) (rest : Ledger)
    (j : Nat) (t : ℚ) (h : frames.length ≤ j) :
    gcAlloc frames ((j, t) :: rest) = gcAlloc frames rest := by
  simp only [gcAlloc, List.foldl_cons, gcStep, if_neg (Nat.not_lt.mpr h)]

/-- The concrete frame table for the C10 example: ten frames, so only
indices `0`–`9` are in range. -/
def c10Frames : List Frame :=
  [⟨"F0"⟩, ⟨"F1"⟩, ⟨"F2"⟩, ⟨"F3"⟩, ⟨"F4"⟩, ⟨"F5"⟩, ⟨"F6"⟩, ⟨"F7"⟩, ⟨"F8"⟩, ⟨"F9"⟩]

/-- The concrete recording for the C10 example: eleven completed
Open/Close pairs, on frame indices `10, 0, 1, …, 9`; index `10` is out
of range of `c10Frames` and carries the largest exclusive time. -/
def c10Events : List SEvent :=
  [⟨"O", 10, 0⟩, ⟨"C", 10, 100⟩,
   ⟨"O", 0, 100⟩, ⟨"C", 0, 120⟩,
   ⟨"O", 1, 120⟩, ⟨"C", 1, 139⟩,
   ⟨"O", 2, 139⟩, ⟨"C", 2, 157⟩,
   ⟨"O", 3, 157⟩, ⟨"C", 3, 174⟩,
   ⟨"O", 4, 174⟩, ⟨"C", 4, 190⟩,
   ⟨"O", 5, 190⟩, ⟨"C", 5, 205⟩,
   ⟨"O", 6, 205⟩, ⟨"C", 6, 219⟩,
   ⟨"O", 7, 219⟩, ⟨"C", 7, 232⟩,
   ⟨"O", 8, 232⟩, ⟨"C", 8, 244⟩,
   ⟨"O", 9, 244⟩, ⟨"C", 9, 255⟩]

/-- C10: (i) an out-of-range ledger entry contributes nothing to the
GC/allocation scan (no out-of-bounds lookup is modelled or needed);
(ii) the hotspot list has at most ten entries; (iii) on a concrete
trace whose aggregate exclusive ledger carries nonzero time on eleven
frame indices — ten of them in range — the hotspot list has only nine
entries, because the out-of-range index `10` occupies one of the ten
`most_common` slots and is then silently dropped. -/
theorem c10_out_of_range_skipped :
    (∀ (frames : List Frame) (rest : Ledger) (j : Nat) (t : ℚ),
       frames.length ≤ j →
       gcAlloc frames ((j, t) :: rest) = gcAlloc frames rest) ∧
    (∀ (frames : List Frame) (t : Totals), (buildTopMethods frames t).length ≤ 10) ∧
    ((parse_speedscope c10Frames [.evented 0 255 c10Events]).top_methods.length = 9 ∧
      ((aggregate (processProfiles [.evented 0 255 c10Events])).total_exclusive.filter
          (fun kv => decide (kv.2 ≠ 0))).length = 11) := by
  refine ⟨gcAlloc_out_of_range, buildTopMethods_length_le, ?_, ?_⟩
  · norm_num [c10Frames, c10Events, parse_speedscope, processProfiles, processProfile,
      decodeEvented, eventedStep_O, eventedStep_C_nil, eventedStep_C_cons, initEvented,
      aggregate, sumLedgers, sumVals, ledgerAdd, ledgerGet, mostCommon, sortByValDesc,
      insertByVal]
    simp +decide [buildTopMethods, mostCommon, sortByValDesc, insertByVal, List.filterMap_cons]
  · norm_num [c10Events, processProfiles, processProfile,
      decodeEvented, eventedStep_O, eventedStep_C_nil, eventedStep_C_cons, initEvented,
      aggregate, sumLedgers, sumVals, ledgerAdd]

/-- C10 witness: the out-of-range clause applied to a concrete
one-frame table and a ledger entry on index `3`. -/
theorem c10_out_of_range_skipped_witness :
    gcAlloc [⟨"main"⟩] [(3, 7), (0, 2)] = gcAlloc [⟨"main"⟩] [(0, 2)] :=
  c10_out_of_range_skipped.1 [⟨"main"⟩] [(0, 2)] 3 7 (by decide)

/-! ### C2: wall-clock duration -/

/-- The `profile_results` record an evented profile produces (statement
vocabulary; junk zeros for the other variants, which never reach
`profile_results`). -/
def evRes : Profile → ProfileResult
  | .evented startValue endValue events =>
      ⟨endValue - startValue, (decodeEvented events).inclusiveL,
        (decodeEvented events).exclusiveL, (decodeEvented events).countL⟩
  | _ => ⟨0, [], [], []⟩

/-- `allEvented profiles = true` when every recording is evented. -/
def allEvented : List Profile → Bool
  | [] => true
  | .evented _ _ _ :: ps => allEvented ps
  | _ => false

/-- A recording's declared duration: `endValue − startValue` for an
evented recording (the spec's per-thread duration), `0` otherwise. -/
def profDur : Profile → ℚ
  | .evented startValue endValue _ => endValue - startValue
  | _ => 0

/-- The maximum declared duration over a list of recordings (Python
`max` over a nonempty sequence; `0` for an empty list). -/
def maxDur : List Profile → ℚ
  | [] => 0
  | p :: ps => (ps.map profDur).foldl max (profDur p)

/-- `evRes` and `profDur` agree on durations. -/
theorem evRes_duration (p : Profile) : (evRes p).duration_ms = profDur p := by
  cases p <;> rfl

/-- Processing an all-evented profile list appends one `evRes` record
per profile and leaves the sampled accumulators untouched. -/
theorem processProfiles_all_evented :
    ∀ (profiles : List Profile), allEvented profiles = true →
      ∀ st : ParseState, profiles.foldl processProfile st =
        ⟨st.total_samples, st.frame_samples, st.profile_results ++ profiles.map evRes⟩ := by
  intro profiles
  induction profiles with
  | nil => intro _ st; cases st; simp
  | cons p ps ih =>
      intro h st
      cases p with
      | sampled samples weights => simp [allEvented] at h
      | otherType => simp [allEvented] at h
      | evented startValue endValue events =>
          have hps : allEvented ps = true := h
          rw [List.foldl_cons, ih hps]
          simp [processProfile, evRes]

/-- C2, counterexample: for a trace of two sampled recordings, each of
total weight `100` (so each per-thread duration is `100`, the sum of
its weights), the reported wall-clock duration is `200` — the SUM of
the per-thread durations, not their maximum `100`. -/
theorem c2_wall_clock_counterexample :
    (parse_speedscope [⟨"f"⟩]
        [.sampled [0] [100], .sampled [0] [100]]).wall_clock_ms = 200 ∧
      (200 : ℚ) = 100 + 100 ∧ (200 : ℚ) ≠ max 100 100 := by
  refine ⟨?_, by norm_num, by norm_num⟩
  norm_num [parse_speedscope, processProfiles, processProfile, sampledLoop,
    aggregate, ledgerAdd, round2]

/-- C2 (amended): for every trace with `N ≥ 1` recordings that are ALL
evented (and a nonempty frame table), the reported wall-clock duration
is the maximum of the per-recording durations `endValue − startValue`
(rounded to two decimals on output).  When no recording is evented the
code instead reports the summed total weight of all sampled recordings
— the sum of the per-thread durations, not their maximum (see the
counterexample) — and in a mixed trace the sampled recordings are
ignored for the wall clock. -/
theorem c2_wall_clock_max_of_evented (frames : List Frame) (profiles : List Profile)
    (hf : frames ≠ []) (hp : profiles ≠ []) (he : allEvented profiles = true) :
    (parse_speedscope frames profiles).wall_clock_ms = round2 (maxDur profiles) := by
  have hfb : frames.isEmpty = false := by
    cases frames with
    | nil => exact absurd rfl hf
    | cons a l => rfl
  have hpb : profiles.isEmpty = false := by
    cases profiles with
    | nil => exact absurd rfl hp
    | cons a l => rfl
  rw [parse_speedscope]
  rw [if_neg (by simp [hfb, hpb])]
  have hproc := processProfiles_all_evented profiles he ⟨0, [], []⟩
  cases profiles with
  | nil => exact absurd rfl hp
  | cons p ps =>
      simp only [processProfiles] at *
      rw [hproc]
      simp only [List.map_cons, List.nil_append]
      rw [aggregate]
      simp only [Totals.wall_clock_ms]
      congr 1
      rw [maxDur, evRes_duration]
      congr 1
      rw [List.map_map]
      congr 1
      funext q
      exact evRes_duration q

/-- C2 witness: the amended theorem at the spec's example — two evented
threads of durations `100` and `250` — so the reported wall clock is
`round2 (max 100 250)`, i.e. `250`, not `350`. -/
theorem c2_wall_clock_max_of_evented_witness :
    (parse_speedscope [⟨"f"⟩]
        [.evented 0 100 [], .evented 0 250 []]).wall_clock_ms =
      round2 (maxDur [.evented 0 100 [], .evented 0 250 []]) ∧
    round2 (maxDur [.evented 0 100 [], .evented 0 250 []]) = 250 := by
  constructor
  · exact c2_wall_clock_max_of_evented [⟨"f"⟩] [.evented 0 100 [], .evented 0 250 []]
      (by decide) (by decide) (by decide)
  · norm_num [maxDur, profDur, round2]

/-! ### C4: frame-name cleanup -/

/-- Modelled from the spec: "the display name is everything after the
first `!`" — drop through the first `'!'` and keep the whole remainder.
Used only for comparison against the source's `cleanFrameName`. -/
def specDisplayName (s : String) : String :=
  if s.data.contains '!' then ⟨(s.data.dropWhile (fun x => decide (x ≠ '!'))).drop 1⟩
  else s

/-- `splitChar` always produces at least one chunk. -/
theorem splitChar_ne_nil (c : Char) (l : List Char) : splitChar c l ≠ [] := by
  cases l with
  | nil => simp [splitChar]
  | cons x xs =>
      rw [splitChar]
      by_cases h : x = c
      · simp [h]
      · simp only [if_neg h]
        rcases hs : splitChar c xs with _ | ⟨p, ps⟩ <;> simp

/-- The first chunk of `splitChar` is the longest prefix free of the
separator. -/
theorem splitChar_head (c : Char) :
    ∀ l : List Char, ∃ ps, splitChar c l = l.takeWhile (fun x => decide (x ≠ c)) :: ps := by
  intro l
  induction l with
  | nil => exact ⟨[], rfl⟩
  | cons x xs ih =>
      by_cases h : x = c
      · refine ⟨splitChar c xs, ?_⟩
        simp [splitChar, h, List.takeWhile]
      · obtain ⟨ps, hps⟩ := ih
        refine ⟨ps, ?_⟩
        rw [splitChar, if_neg h, hps]
        simp [List.takeWhile, h]

/-- Splitting at the first separator occurrence: the prefix before it
becomes the first chunk. -/
theorem splitChar_append_sep (c : Char) :
    ∀ (a rest : List Char), c ∉ a →
      splitChar c (a ++ c :: rest) = a :: splitChar c rest := by
  intro a
  induction a with
  | nil => intro rest _; simp [splitChar]
  | cons x xs ih =>
      intro rest hmem
      have hx : x ≠ c := fun h => hmem (h ▸ List.mem_cons_self x xs)
      have hxs : c ∉ xs := fun h => hmem (List.mem_cons_of_mem x h)
      rw [List.cons_append, splitChar, if_neg hx, ih rest hxs]

/-- C4, counterexample: on a name with two `'!'` separators the code
keeps only the text between the first and the second `'!'`
(`split('!')[1]`), while the claim demands everything after the first
`'!'` (as the spec-modelled `specDisplayName` computes). -/
theorem c4_two_separators_counterexample :
    cleanFrameName "Asm!Ns.Class!Method" = "Ns.Class" ∧
      specDisplayName "Asm!Ns.Class!Method" = "Ns.Class!Method" ∧
      ("Ns.Class" : String) ≠ "Ns.Class!Method" := by
  refine ⟨by decide, by decide, by decide⟩

/-- C4 (amended): when the raw name contains a `'!'`, the display name
is the chunk strictly between the first `'!'` and the following `'!'`
(or the end of the string): `parts[1]` of the split.  A name without
`'!'` is kept unchanged.  The code agrees with the claim's
"everything after the first `'!'`" exactly when no second `'!'`
follows. -/
theorem c4_display_name_second_chunk :
    (∀ (a rest : List Char), '!' ∉ a →
       cleanFrameName ⟨a ++ '!' :: rest⟩ =
         ⟨rest.takeWhile (fun x => decide (x ≠ '!'))⟩) ∧
    (∀ s : String, '!' ∉ s.data → cleanFrameName s = s) ∧
    (∀ (a rest : List Char), '!' ∉ a → '!' ∉ rest →
       cleanFrameName ⟨a ++ '!' :: rest⟩ = specDisplayName ⟨a ++ '!' :: rest⟩) := by
  have hcontains_iff : ∀ (l : List Char) (c : Char), l.contains c = true ↔ c ∈ l := by
    intro l c
    simp [List.contains, List.elem_iff]
  have hmain : ∀ (a rest : List Char), '!' ∉ a →
      cleanFrameName ⟨a ++ '!' :: rest⟩ =
        ⟨rest.takeWhile (fun x => decide (x ≠ '!'))⟩ := by
    intro a rest ha
    have hcontains : ('!' : Char) ∈ a ++ '!' :: rest :=
      List.mem_append_right a (List.mem_cons_self _ _)
    rw [cleanFrameName]
    rw [if_pos ((hcontains_iff _ _).mpr hcontains)]
    obtain ⟨ps, hps⟩ := splitChar_head '!' rest
    rw [show (String.mk (a ++ '!' :: rest)).data = a ++ '!' :: rest from rfl,
      splitChar_append_sep '!' a rest ha, hps]
  refine ⟨hmain, ?_, ?_⟩
  · intro s hs
    rw [cleanFrameName, if_neg]
    intro hcon
    exact hs ((hcontains_iff _ _).mp hcon)
  · intro a rest ha hrest
    rw [hmain a rest ha, specDisplayName,
      if_pos ((hcontains_iff _ _).mpr
        (List.mem_append_right a (List.mem_cons_self ('!') rest)))]
    congr 1
    rw [show (String.mk (a ++ '!' :: rest)).data = a ++ '!' :: rest from rfl]
    have htake : rest.takeWhile (fun x => decide (x ≠ '!')) = rest := by
      rw [List.takeWhile_eq_self_iff]
      intro x hx
      simp only [decide_eq_true_eq]
      exact fun h => hrest (h ▸ hx)
    have hdropa : (a ++ '!' :: rest).dropWhile (fun x => decide (x ≠ '!')) = '!' :: rest := by
      rw [List.dropWhile_append]
      have ha' : a.dropWhile (fun x => decide (x ≠ '!')) = [] := by
        rw [List.dropWhile_eq_nil_iff]
        intro x hx
        simp only [decide_eq_true_eq]
        exact fun h => ha (h ▸ hx)
      rw [ha']
      simp [List.dropWhile_cons]
    rw [htake, hdropa]
    rfl

/-- C4 witness: the amended theorem at the concrete name `"Asm!Ns.M"`
(second chunk `"Ns.M"`) and at a name with no separator. -/
theorem c4_display_name_second_chunk_witness :
    cleanFrameName ⟨['A', 's', 'm'] ++ '!' :: ['N', 's', '.', 'M']⟩ =
        ⟨(['N', 's', '.', 'M']).takeWhile (fun x => decide (x ≠ '!'))⟩ ∧
      cleanFrameName "plain" = "plain" :=
  ⟨c4_display_name_second_chunk.1 ['A', 's', 'm'] ['N', 's', '.', 'M'] (by decide),
   c4_display_name_second_chunk.2.1 "plain" (by decide)⟩

/-! ### C6: GC and allocation shares -/

/-- Shifting the accumulator out of the GC/allocation fold. -/
theorem gcAlloc_foldl_shift (frames : List Frame) :
    ∀ (l : Ledger) (acc : ℚ × ℚ),
      l.foldl (gcStep frames) acc =
        (acc.1 + (gcAlloc frames l).1, acc.2 + (gcAlloc frames l).2) := by
  intro l
  induction l with
  | nil => intro acc; simp [gcAlloc]
  | cons kv rest ih =>
      intro acc
      rw [List.foldl_cons, ih (gcStep frames acc kv)]
      have hgc : gcAlloc frames (kv :: rest) =
          ((gcStep frames (0, 0) kv).1 + (gcAlloc frames rest).1,
           (gcStep frames (0, 0) kv).2 + (gcAlloc frames rest).2) := by
        rw [gcAlloc, List.foldl_cons, ih (gcStep frames (0, 0) kv)]
      rw [hgc]
      rw [gcStep, gcStep]
      by_cases h1 : kv.1 < frames.length
      · simp only [if_pos h1]
        by_cases h2 : (strContains (lowerStr (frames.getD kv.1 ⟨""⟩).name) "gc" ||
            strContains (lowerStr (frames.getD kv.1 ⟨""⟩).name) "garbage") = true
        · by_cases h3 : strContains (lowerStr (frames.getD kv.1 ⟨""⟩).name) "alloc" = true
          · simp only [h2, h3, if_true]
            simp only [Prod.mk.injEq]
            exact ⟨by ring, by ring⟩
          · simp only [h2, if_true, Bool.not_eq_true] at *
            simp only [h3, if_false, Bool.false_eq_true]
            simp only [Prod.mk.injEq]
            exact ⟨by ring, by ring⟩
        · simp only [Bool.not_eq_true] at h2
          by_cases h3 : strContains (lowerStr (frames.getD kv.1 ⟨""⟩).name) "alloc" = true
          · simp only [h2, h3, if_true, Bool.false_eq_true, if_false]
            simp only [Prod.mk.injEq]
            exact ⟨by ring, by ring⟩
          · simp only [Bool.not_eq_true] at h3
            simp only [h2, h3, Bool.false_eq_true, if_false]
            simp only [Prod.mk.injEq]
            exact ⟨by ring, by ring⟩
      · simp only [if_neg h1]
        simp only [Prod.mk.injEq]
        exact ⟨by ring, by ring⟩

/-- C6 (amended): the GC time is the sum, over in-range ledger entries,
of the exclusive time of frames whose RAW name — lower-cased but not
cleaned of its `'!'`-qualifier — contains `"gc"` or `"garbage"`; the
allocation time likewise for `"alloc"`; and each is reported as a
(rounded) percentage of the wall-clock duration, with a zero wall clock
guarded to `0`.  (The claim's reference to the cleaned display name is
wrong: see the counterexample, where the `"gc"` occurrence sits in the
module-qualifier part that the display name drops.) -/
theorem c6_gc_alloc_shares (frames : List Frame) (l : Ledger) :
    (gcAlloc frames l).1 = (l.map (fun kv =>
        if kv.1 < frames.length then
          (if strContains (lowerStr (frames.getD kv.1 ⟨""⟩).name) "gc" ||
              strContains (lowerStr (frames.getD kv.1 ⟨""⟩).name) "garbage"
           then kv.2 else 0)
        else 0)).sum ∧
    (gcAlloc frames l).2 = (l.map (fun kv =>
        if kv.1 < frames.length then
          (if strContains (lowerStr (frames.getD kv.1 ⟨""⟩).name) "alloc"
           then kv.2 else 0)
        else 0)).sum ∧
    (∀ profiles : List Profile, frames.isEmpty = false → profiles.isEmpty = false →
      (parse_speedscope frames profiles).gc_samples =
          (gcAlloc frames (aggregate (processProfiles profiles)).total_exclusive).1 ∧
        (parse_speedscope frames profiles).gc_percentage =
          round2 (if 0 < (aggregate (processProfiles profiles)).wall_clock_ms then
            (gcAlloc frames (aggregate (processProfiles profiles)).total_exclusive).1 /
              (aggregate (processProfiles profiles)).wall_clock_ms * 100 else 0) ∧
        (parse_speedscope frames profiles).alloc_samples =
          (gcAlloc frames (aggregate (processProfiles profiles)).total_exclusive).2 ∧
        (parse_speedscope frames profiles).alloc_percentage =
          round2 (if 0 < (aggregate (processProfiles profiles)).wall_clock_ms then
            (gcAlloc frames (aggregate (processProfiles profiles)).total_exclusive).2 /
              (aggregate (processProfiles profiles)).wall_clock_ms * 100 else 0)) := by
  refine ⟨?_, ?_, ?_⟩
  · induction l with
    | nil => simp [gcAlloc]
    | cons kv rest ih =>
        rw [gcAlloc, List.foldl_cons, gcAlloc_foldl_shift frames rest (gcStep frames (0, 0) kv)]
        rw [List.map_cons, List.sum_cons, ih]
        rw [gcStep]
        by_cases h1 : kv.1 < frames.length
        · simp only [if_pos h1]
          by_cases h2 : (strContains (lowerStr (frames.getD kv.1 ⟨""⟩).name) "gc" ||
              strContains (lowerStr (frames.getD kv.1 ⟨""⟩).name) "garbage") = true
          · simp [h2]
          · simp only [Bool.not_eq_true] at h2
            simp [h2]
        · simp [if_neg h1]
  · induction l with
    | nil => simp [gcAlloc]
    | cons kv rest ih =>
        rw [gcAlloc, List.foldl_cons, gcAlloc_foldl_shift frames rest (gcStep frames (0, 0) kv)]
        rw [List.map_cons, List.sum_cons, ih]
        rw [gcStep]
        by_cases h1 : kv.1 < frames.length
        · simp only [if_pos h1]
          by_cases h3 : strContains (lowerStr (frames.getD kv.1 ⟨""⟩).name) "alloc" = true
          · simp [h3]
          · simp only [Bool.not_eq_true] at h3
            simp [h3]
        · simp [if_neg h1]
  · intro profiles hf hp
    rw [parse_speedscope, if_neg (by simp [hf, hp])]
    exact ⟨rfl, rfl, rfl, rfl⟩

/-- C6, counterexample: frame `0` is named `"MyGC!Work"`.  Its cleaned
display name `"Work"` contains neither `"gc"` nor `"garbage"` nor
`"alloc"`, yet the code sums its whole exclusive time (`10`) into the
GC bucket, because the scan lower-cases the RAW name `"MyGC!Work"`,
whose module-qualifier part contains `"gc"`.  Under the claim (display
names only) the GC time would be `0`. -/
theorem c6_raw_name_counterexample :
    (parse_speedscope [⟨"MyGC!Work"⟩]
        [.evented 0 10 [⟨"O", 0, 0⟩, ⟨"C", 0, 10⟩]]).gc_samples = 10 ∧
      strContains (lowerStr (cleanFrameName "MyGC!Work")) "gc" = false ∧
      strContains (lowerStr (cleanFrameName "MyGC!Work")) "garbage" = false ∧
      (10 : ℚ) ≠ 0 := by
  refine ⟨?_, by decide, by decide, by norm_num⟩
  norm_num [parse_speedscope, processProfiles, processProfile, decodeEvented,
    eventedStep_O, eventedStep_C_nil, eventedStep_C_cons, initEvented,
    aggregate, sumLedgers, sumVals, ledgerAdd, ledgerGet, gcAlloc, gcStep,
    show strContains (lowerStr "MyGC!Work") "gc" = true from by decide]

/-- C6 witness: the percentage clause applied to a concrete one-frame,
one-recording trace. -/
theorem c6_gc_alloc_shares_witness :
    (parse_speedscope [⟨"GC.Collect"⟩]
        [.evented 0 10 [⟨"O", 0, 0⟩, ⟨"C", 0, 10⟩]]).gc_samples =
      (gcAlloc [⟨"GC.Collect"⟩]
        (aggregate (processProfiles
          [.evented 0 10 [⟨"O", 0, 0⟩, ⟨"C", 0, 10⟩]])).total_exclusive).1 :=
  ((c6_gc_alloc_shares [⟨"GC.Collect"⟩] []).2.2
    [.evented 0 10 [⟨"O", 0, 0⟩, ⟨"C", 0, 10⟩]] rfl rfl).1

/-! ### C3: hotspot ranking -/

/-- Membership in an insertion. -/
theorem mem_insertByVal (x z : Nat × ℚ) :
    ∀ l, z ∈ insertByVal x l ↔ z = x ∨ z ∈ l := by
  intro l
  induction l with
  | nil => simp [insertByVal]
  | cons y ys ih =>
      rw [insertByVal]
      by_cases h : y.2 ≤ x.2
      · rw [if_pos h]; simp
      · rw [if_neg h]
        simp only [List.mem_cons, ih]
        tauto

/-- Insertion preserves descending-by-value pairwise order. -/
theorem pairwise_insertByVal (x : Nat × ℚ) :
    ∀ l, List.Pairwise (fun a b : Nat × ℚ => b.2 ≤ a.2) l →
      List.Pairwise (fun a b : Nat × ℚ => b.2 ≤ a.2) (insertByVal x l) := by
  intro l
  induction l with
  | nil => intro _; simp [insertByVal]
  | cons y ys ih =>
      intro hp
      obtain ⟨hy, hys⟩ := List.pairwise_cons.mp hp
      rw [insertByVal]
      by_cases h : y.2 ≤ x.2
      · rw [if_pos h]
        refine List.pairwise_cons.mpr ⟨?_, hp⟩
        intro b hb
        rcases List.mem_cons.mp hb with rfl | hb'
        · exact h
        · exact le_trans (hy b hb') h
      · rw [if_neg h]
        refine List.pairwise_cons.mpr ⟨?_, ih hys⟩
        intro b hb
        rcases (mem_insertByVal x b ys).mp hb with rfl | hb'
        · exact (not_le.mp h).le
        · exact hy b hb'

/-- The stable descending sort is pairwise descending by value. -/
theorem pairwise_sortByValDesc (l : List (Nat × ℚ)) :
    List.Pairwise (fun a b : Nat × ℚ => b.2 ≤ a.2) (sortByValDesc l) := by
  induction l with
  | nil => simp [sortByValDesc]
  | cons x xs ih => exact pairwise_insertByVal x _ ih

/-- Sorting introduces no new elements. -/
theorem mem_sortByValDesc {z : Nat × ℚ} :
    ∀ {l}, z ∈ sortByValDesc l → z ∈ l := by
  intro l
  induction l with
  | nil => intro h; exact absurd h (List.not_mem_nil z)
  | cons x xs ih =>
      intro h
      rcases (mem_insertByVal x z (sortByValDesc xs)).mp h with rfl | h'
      · exact List.mem_cons_self _ _
      · exact List.mem_cons_of_mem x (ih h')

/-- Inserting an element of a different value leaves a value-filter
unchanged. -/
theorem filter_insertByVal_ne (x : Nat × ℚ) (v : ℚ) (hx : x.2 ≠ v) :
    ∀ l, (insertByVal x l).filter (fun y => decide (y.2 = v)) =
      l.filter (fun y => decide (y.2 = v)) := by
  intro l
  induction l with
  | nil => simp [insertByVal, List.filter_cons, hx]
  | cons y ys ih =>
      rw [insertByVal]
      by_cases h : y.2 ≤ x.2
      · rw [if_pos h, List.filter_cons, if_neg (by simp [hx])]
      · rw [if_neg h, List.filter_cons, List.filter_cons, ih]

/-- Inserting an element puts it in front of the filter at its own
value: insertion passes only strictly larger values. -/
theorem filter_insertByVal_eq (x : Nat × ℚ) :
    ∀ l, (insertByVal x l).filter (fun y => decide (y.2 = x.2)) =
      x :: l.filter (fun y => decide (y.2 = x.2)) := by
  intro l
  induction l with
  | nil => simp [insertByVal, List.filter_cons]
  | cons y ys ih =>
      rw [insertByVal]
      by_cases h : y.2 ≤ x.2
      · rw [if_pos h, List.filter_cons, if_pos (by simp)]
      · have hne : y.2 ≠ x.2 := fun hh => h (le_of_eq hh)
        rw [if_neg h, List.filter_cons, if_neg (by simp [hne]), ih,
          List.filter_cons, if_neg (by simp [hne])]

/-- Stability of the sort: among entries of any fixed value, the sorted
list preserves the original (insertion) order. -/
theorem sortByValDesc_stable :
    ∀ (l : List (Nat × ℚ)) (v : ℚ),
      (sortByValDesc l).filter (fun y => decide (y.2 = v)) =
        l.filter (fun y => decide (y.2 = v)) := by
  intro l
  induction l with
  | nil => intro v; rfl
  | cons x xs ih =>
      intro v
      rw [sortByValDesc]
      by_cases h : x.2 = v
      · subst h
        rw [filter_insertByVal_eq x (sortByValDesc xs), ih,
          List.filter_cons, if_pos (by simp)]
      · rw [filter_insertByVal_ne x v h, ih, List.filter_cons, if_neg (by simp [h])]

/-- C3 (amended): `most_common(n)` of the aggregate exclusive ledger is
ordered by value descending, has at most `n` entries, draws its entries
from the ledger, and is the prefix of a STABLE descending sort — among
tied entries the ledger's insertion order decides (for an evented trace,
the order in which frames were first closed), NOT the frame index.
Determinism across runs holds because the whole pipeline is a pure
function. -/
theorem c3_hotspot_ranking :
    (∀ (l : List (Nat × ℚ)) (n : Nat),
       List.Pairwise (fun a b : Nat × ℚ => b.2 ≤ a.2) (mostCommon n l)) ∧
    (∀ (l : List (Nat × ℚ)) (n : Nat), (mostCommon n l).length ≤ n) ∧
    (∀ (l : List (Nat × ℚ)) (n : Nat) (x : Nat × ℚ), x ∈ mostCommon n l → x ∈ l) ∧
    (∀ (l : List (Nat × ℚ)) (v : ℚ),
       (sortByValDesc l).filter (fun y => decide (y.2 = v)) =
         l.filter (fun y => decide (y.2 = v))) := by
  refine ⟨?_, ?_, ?_, sortByValDesc_stable⟩
  · intro l n
    exact List.Pairwise.sublist (List.take_sublist n _) (pairwise_sortByValDesc l)
  · intro l n
    exact List.length_take_le n _
  · intro l n x hx
    exact mem_sortByValDesc (List.take_subset n _ hx)

/-- C3, counterexample: frames `5` and `2` both have exclusive time
`10`; frame `5` closes first, so it enters the aggregate ledger first
and `most_common` lists it first — the hotspot list is
`["F5", "F2"]`, not the claimed index-ascending `["F2", "F5"]`. -/
theorem c3_tie_order_counterexample :
    ((parse_speedscope [⟨"F0"⟩, ⟨"F1"⟩, ⟨"F2"⟩, ⟨"F3"⟩, ⟨"F4"⟩, ⟨"F5"⟩]
        [.evented 0 30 [⟨"O", 5, 0⟩, ⟨"C", 5, 10⟩, ⟨"O", 2, 20⟩, ⟨"C", 2, 30⟩]]
      ).top_methods.map (fun m => m.method)) = ["F5", "F2"] ∧
      (["F5", "F2"] : List String) ≠ ["F2", "F5"] := by
  constructor
  · norm_num [parse_speedscope, processProfiles, processProfile, decodeEvented,
      eventedStep_O, eventedStep_C_nil, eventedStep_C_cons, initEvented, aggregate,
      sumLedgers, sumVals, ledgerAdd, ledgerGet, mostCommon, sortByValDesc, insertByVal]
    simp +decide [buildTopMethods, mostCommon, sortByValDesc, insertByVal,
      List.filterMap_cons,
      show cleanFrameName "F5" = "F5" from by decide,
      show cleanFrameName "F2" = "F2" from by decide]
  · decide

/-- C3 witness: the ranking clauses applied to the concrete tied ledger
`[(5, 10), (2, 10)]`. -/
theorem c3_hotspot_ranking_witness :
    ((5, 10) : Nat × ℚ) ∈ [((5, 10) : Nat × ℚ), (2, 10)] ∧
      List.Pairwise (fun a b : Nat × ℚ => b.2 ≤ a.2)
        (mostCommon 10 [((5, 10) : Nat × ℚ), (2, 10)]) := by
  constructor
  · exact c3_hotspot_ranking.2.2.1 [(5, 10), (2, 10)] 10 (5, 10) (by
      simp +decide [mostCommon, sortByValDesc, insertByVal])
  · exact c3_hotspot_ranking.1 [(5, 10), (2, 10)] 10

/-! ### C5: element-wise aggregation across threads -/

/-- The total value a ledger (possibly with duplicate keys) carries at
one frame index. -/
def ledgerSumAt {α : Type} [AddCommMonoid α] (l : List (Nat × α)) (f : Nat) : α :=
  (l.map (fun kv => if kv.1 = f then kv.2 else 0)).sum

/-- Folding a ledger's items into an accumulator with `ledgerAdd` adds
exactly the ledger's total at each index. -/
theorem ledgerGet_foldl_ledgerAdd {α : Type} [AddCommMonoid α] :
    ∀ (l : List (Nat × α)) (acc : List (Nat × α)) (f : Nat),
      ledgerGet (l.foldl (fun a kv => ledgerAdd a kv.1 kv.2) acc) f =
        ledgerGet acc f + ledgerSumAt l f := by
  intro l
  induction l with
  | nil => intro acc f; simp [ledgerSumAt]
  | cons kv t ih =>
      intro acc f
      rw [List.foldl_cons, ih, ledgerGet_ledgerAdd]
      simp only [ledgerSumAt, List.map_cons, List.sum_cons, add_assoc]

/-- Aggregating a list of ledgers sums their per-index totals. -/
theorem ledgerGet_sumLedgers {α : Type} [AddCommMonoid α] :
    ∀ (ls : List (List (Nat × α))) (acc : List (Nat × α)) (f : Nat),
      ledgerGet (sumLedgers acc ls) f =
        ledgerGet acc f + (ls.map (fun l => ledgerSumAt l f)).sum := by
  intro ls
  induction ls with
  | nil => intro acc f; simp [sumLedgers]
  | cons l ls ih =>
      intro acc f
      rw [show sumLedgers acc (l :: ls) =
            sumLedgers (l.foldl (fun a kv => ledgerAdd a kv.1 kv.2) acc) ls from rfl]
      rw [ih, ledgerGet_foldl_ledgerAdd, List.map_cons, List.sum_cons, add_assoc]

/-- A ledger whose keys appear at most once. -/
def keysNodup {α : Type} (l : List (Nat × α)) : Prop := (l.map Prod.fst).Nodup

/-- `ledgerAdd` updates an existing key in place or appends a new one. -/
theorem ledgerAdd_keys {α : Type} [Add α] :
    ∀ (l : List (Nat × α)) (k : Nat) (v : α),
      (ledgerAdd l k v).map Prod.fst =
        if k ∈ l.map Prod.fst then l.map Prod.fst else l.map Prod.fst ++ [k] := by
  intro l
  induction l with
  | nil => intro k v; simp [ledgerAdd]
  | cons hd t ih =>
      intro k v
      obtain ⟨k', v'⟩ := hd
      rw [ledgerAdd]
      by_cases h : k' = k
      · subst h
        simp [List.mem_cons]
      · rw [if_neg h, List.map_cons, ih]
        have hmem : k ∈ List.map Prod.fst ((k', v') :: t) ↔ k ∈ List.map Prod.fst t := by
          rw [List.map_cons, List.mem_cons]
          exact or_iff_right (fun hh => h hh.symm)
        by_cases hm : k ∈ List.map Prod.fst t
        · rw [if_pos hm, if_pos (hmem.mpr hm), List.map_cons]
        · rw [if_neg hm, if_neg (fun hh => hm (hmem.mp hh)), List.map_cons, List.cons_append]

/-- `ledgerAdd` preserves key uniqueness. -/
theorem keysNodup_ledgerAdd {α : Type} [Add α] (l : List (Nat × α)) (k : Nat) (v : α)
    (h : keysNodup l) : keysNodup (ledgerAdd l k v) := by
  rw [keysNodup, ledgerAdd_keys]
  by_cases hm : k ∈ l.map Prod.fst
  · rw [if_pos hm]; exact h
  · rw [if_neg hm]
    simp only [List.nodup_append, List.nodup_cons, List.not_mem_nil, not_false_eq_true,
      List.nodup_nil, and_true, List.disjoint_singleton, true_and]
    exact ⟨h, hm⟩

/-- A ledger carries nothing at an absent key. -/
theorem ledgerSumAt_of_not_mem {α : Type} [AddCommMonoid α] :
    ∀ (l : List (Nat × α)) (f : Nat), f ∉ l.map Prod.fst → ledgerSumAt l f = 0 := by
  intro l
  induction l with
  | nil => intro f _; rfl
  | cons kv t ih =>
      intro f hf
      rw [ledgerSumAt, List.map_cons, List.sum_cons]
      have h1 : kv.1 ≠ f := fun h => hf (by rw [List.map_cons]; exact h ▸ List.mem_cons_self _ _)
      rw [if_neg h1, zero_add]
      exact ih f (fun h => hf (by rw [List.map_cons]; exact List.mem_cons_of_mem _ h))

/-- On a duplicate-free ledger the per-index total is the lookup. -/
theorem ledgerSumAt_eq_ledgerGet {α : Type} [AddCommMonoid α] :
    ∀ (l : List (Nat × α)) (f : Nat), keysNodup l → ledgerSumAt l f = ledgerGet l f := by
  intro l
  induction l with
  | nil => intro f _; rfl
  | cons kv t ih =>
      intro f h
      obtain ⟨k, v⟩ := kv
      have h' : (k :: t.map Prod.fst).Nodup := by
        simpa [keysNodup, List.map_cons] using h
      obtain ⟨hk, ht⟩ := List.nodup_cons.mp h'
      rw [ledgerSumAt, List.map_cons, List.sum_cons,
        show (t.map (fun kv => if kv.1 = f then kv.2 else 0)).sum = ledgerSumAt t f from rfl,
        ledgerGet]
      by_cases hf : k = f
      · subst hf
        rw [if_pos rfl, if_pos rfl, ledgerSumAt_of_not_mem t k hk, add_zero]
      · rw [if_neg hf, if_neg hf, zero_add, ih f ht]

/-- The decoder's three ledgers keep their keys unique. -/
theorem eventedStep_keysNodup (s : EventedState) (e : SEvent)
    (h : keysNodup s.inclusiveL ∧ keysNodup s.exclusiveL ∧ keysNodup s.countL) :
    keysNodup (eventedStep s e).inclusiveL ∧ keysNodup (eventedStep s e).exclusiveL ∧
      keysNodup (eventedStep s e).countL := by
  obtain ⟨stk, il, el, cl⟩ := s
  obtain ⟨h1, h2, h3⟩ := h
  by_cases hO : e.type = "O"
  · have he : e = ⟨"O", e.frame, e.ts⟩ := by obtain ⟨ty, f, t⟩ := e; simp_all
    rw [he, eventedStep_O]
    exact ⟨h1, h2, h3⟩
  · by_cases hC : e.type = "C"
    · have he : e = ⟨"C", e.frame, e.ts⟩ := by obtain ⟨ty, f, t⟩ := e; simp_all
      cases stk with
      | nil => rw [he, eventedStep_C_nil]; exact ⟨h1, h2, h3⟩
      | cons top rest =>
          rw [he, eventedStep_C_cons]
          by_cases hm : top.frame = e.frame
          · rw [if_pos hm]
            exact ⟨keysNodup_ledgerAdd _ _ _ h1, keysNodup_ledgerAdd _ _ _ h2,
              keysNodup_ledgerAdd _ _ _ h3⟩
          · rw [if_neg hm]; exact ⟨h1, h2, h3⟩
    · have hstep : eventedStep ⟨stk, il, el, cl⟩ e = ⟨stk, il, el, cl⟩ := by
        rw [eventedStep]; simp [hO, hC]
      rw [hstep]; exact ⟨h1, h2, h3⟩

/-- Key uniqueness of the ledgers of a whole decoding run. -/
theorem decodeEvented_keysNodup (events : List SEvent) :
    keysNodup (decodeEvented events).inclusiveL ∧
      keysNodup (decodeEvented events).exclusiveL ∧
      keysNodup (decodeEvented events).countL := by
  suffices h : ∀ (l : List SEvent) (s : EventedState),
      keysNodup s.inclusiveL ∧ keysNodup s.exclusiveL ∧ keysNodup s.countL →
      keysNodup (l.foldl eventedStep s).inclusiveL ∧
        keysNodup (l.foldl eventedStep s).exclusiveL ∧
        keysNodup (l.foldl eventedStep s).countL by
    exact h events initEvented ⟨List.nodup_nil, List.nodup_nil, List.nodup_nil⟩
  intro l
  induction l with
  | nil => intro s hs; exact hs
  | cons e es ih =>
      intro s hs
      exact ih (eventedStep s e) (eventedStep_keysNodup s e hs)

/-- The per-profile ledgers have unique keys. -/
theorem evRes_keysNodup (p : Profile) :
    keysNodup (evRes p).frame_inclusive ∧ keysNodup (evRes p).frame_exclusive ∧
      keysNodup (evRes p).frame_count := by
  cases p with
  | evented startValue endValue events => exact decodeEvented_keysNodup events
  | sampled samples weights => exact ⟨List.nodup_nil, List.nodup_nil, List.nodup_nil⟩
  | otherType => exact ⟨List.nodup_nil, List.nodup_nil, List.nodup_nil⟩

/-- C5 (amended): for every trace whose recordings are ALL evented, the
aggregate inclusive time, exclusive time and occurrence count at every
frame index are the element-wise sums of that frame's entries across
the per-thread ledgers.  (In a mixed trace the sampled recordings'
ledgers are discarded entirely — see the counterexample — and in an
all-sampled trace the aggregate count ledger is reset to empty.) -/
theorem c5_elementwise_sums (profiles : List Profile)
    (he : allEvented profiles = true) (f : Nat) :
    ledgerGet (aggregate (processProfiles profiles)).total_exclusive f =
        (profiles.map (fun p => ledgerGet (evRes p).frame_exclusive f)).sum ∧
      ledgerGet (aggregate (processProfiles profiles)).total_inclusive f =
        (profiles.map (fun p => ledgerGet (evRes p).frame_inclusive f)).sum ∧
      ledgerGet (aggregate (processProfiles profiles)).total_count f =
        (profiles.map (fun p => ledgerGet (evRes p).frame_count f)).sum := by
  have hproc : processProfiles profiles = ⟨0, [], profiles.map evRes⟩ := by
    rw [processProfiles, processProfiles_all_evented profiles he ⟨0, [], []⟩]
    simp
  rw [hproc]
  cases hmap : profiles.map evRes with
  | nil =>
      have : profiles = [] := List.map_eq_nil.mp hmap
      subst this
      simp [aggregate, ledgerGet]
  | cons r rs =>
      have hagg : aggregate ⟨0, [], r :: rs⟩ =
          ⟨((rs.map (fun p => p.duration_ms)).foldl max r.duration_ms),
            sumVals (sumLedgers [] ((r :: rs).map (fun p => p.frame_exclusive))),
            sumLedgers [] ((r :: rs).map (fun p => p.frame_inclusive)),
            sumLedgers [] ((r :: rs).map (fun p => p.frame_exclusive)),
            sumLedgers [] ((r :: rs).map (fun p => p.frame_count))⟩ := rfl
      rw [hagg]
      refine ⟨?_, ?_, ?_⟩
      · rw [← hmap, ledgerGet_sumLedgers, List.map_map, List.map_map]
        simp only [ledgerGet, zero_add]
        refine congrArg List.sum (List.map_congr_left ?_)
        intro p _
        exact ledgerSumAt_eq_ledgerGet _ f (evRes_keysNodup p).2.1
      · rw [← hmap, ledgerGet_sumLedgers, List.map_map, List.map_map]
        simp only [ledgerGet, zero_add]
        refine congrArg List.sum (List.map_congr_left ?_)
        intro p _
        exact ledgerSumAt_eq_ledgerGet _ f (evRes_keysNodup p).1
      · rw [← hmap, ledgerGet_sumLedgers, List.map_map, List.map_map]
        simp only [ledgerGet, zero_add]
        refine congrArg List.sum (List.map_congr_left ?_)
        intro p _
        exact ledgerSumAt_eq_ledgerGet _ f (evRes_keysNodup p).2.2

/-- C5, counterexample: a mixed trace — one sampled recording whose
ledger carries `100` at frame `0`, one evented recording whose ledger
carries `50` at frame `0`.  The element-wise sum across the two
per-thread ledgers is `150`, but the aggregate exclusive time at frame
`0` is `50`: the sampled recording's ledger is discarded whenever any
evented recording is present. -/
theorem c5_mixed_trace_counterexample :
    ledgerGet (aggregate (processProfiles
        [.sampled [0] [100],
         .evented 0 50 [⟨"O", 0, 0⟩, ⟨"C", 0, 50⟩]])).total_exclusive 0 = 50 ∧
      ledgerGet (processProfile ⟨0, [], []⟩ (.sampled [0] [100])).frame_samples 0 +
          ledgerGet (decodeEvented [⟨"O", 0, 0⟩, ⟨"C", 0, 50⟩]).exclusiveL 0 = 150 ∧
      (50 : ℚ) ≠ 150 := by
  refine ⟨?_, ?_, by norm_num⟩
  · norm_num [processProfiles, processProfile, sampledLoop, decodeEvented,
      eventedStep_O, eventedStep_C_nil, eventedStep_C_cons, initEvented,
      aggregate, sumLedgers, sumVals, ledgerAdd, ledgerGet]
  · norm_num [processProfile, sampledLoop, decodeEvented,
      eventedStep_O, eventedStep_C_nil, eventedStep_C_cons, initEvented,
      ledgerAdd, ledgerGet]

/-- C5 witness: the amended theorem applied to a concrete two-thread
all-evented trace sharing frame `0` (exclusive `30` and `20`, summing
to `50`). -/
theorem c5_elementwise_sums_witness :
    ledgerGet (aggregate (processProfiles
        [.evented 0 30 [⟨"O", 0, 0⟩, ⟨"C", 0, 30⟩],
         .evented 0 20 [⟨"O", 0, 0⟩, ⟨"C", 0, 20⟩]])).total_exclusive 0 =
      ([Profile.evented 0 30 [⟨"O", 0, 0⟩, ⟨"C", 0, 30⟩],
        Profile.evented 0 20 [⟨"O", 0, 0⟩, ⟨"C", 0, 20⟩]].map
          (fun p => ledgerGet (evRes p).frame_exclusive 0)).sum :=
  (c5_elementwise_sums
    [.evented 0 30 [⟨"O", 0, 0⟩, ⟨"C", 0, 30⟩],
     .evented 0 20 [⟨"O", 0, 0⟩, ⟨"C", 0, 20⟩]] (by decide) 0).1
